import Mathlib

/-!
Verification of the page-text reconciliation pipeline of `pdf_to_text.py`.

Python strings are modelled as `List Char`.  The string primitives used by
the program (`str.strip`, `str.split`, `str.splitlines`, `str.lower`,
`str.join`, `len`) are embedded below, followed by the similarity ratio of
`difflib.SequenceMatcher` (with `isjunk=None`, `autojunk=True`), and then
the program's own functions `_normalize_line`, `_merge_page_text`,
`_should_ocr` and `extract_pdf_text`.
-/

/-- Python `str.isspace` / default whitespace set of `str.split` and
`str.strip`, by code point. -/
def pyIsSpace (c : Char) : Bool :=
  decide (c.toNat ∈ ([9, 10, 11, 12, 13, 28, 29, 30, 31, 32, 133, 160,
    5760, 8192, 8193, 8194, 8195, 8196, 8197, 8198, 8199, 8200, 8201,
    8202, 8232, 8233, 8239, 8287, 12288] : List Nat))

/-- Line-boundary characters of Python `str.splitlines` other than `'\r'`
(carriage return is handled separately so that `"\r\n"` counts once). -/
def pyIsLineBreakChar (c : Char) : Bool :=
  decide (c.toNat ∈ ([10, 11, 12, 28, 29, 30, 133, 8232, 8233] : List Nat))

/-- Python `str.strip()` (no argument): drop whitespace from both ends. -/
def pyStrip (l : List Char) : List Char :=
  ((l.dropWhile pyIsSpace).reverse.dropWhile pyIsSpace).reverse

/-- Python `str.lstrip()` (no argument). -/
def pyLstrip (l : List Char) : List Char :=
  l.dropWhile pyIsSpace

/-- Worker for `pySplit`: `acc` holds the current word reversed. -/
def pySplitGo : List Char → List Char → List (List Char)
  | [], acc => if acc = [] then [] else [acc.reverse]
  | c :: cs, acc =>
    if pyIsSpace c then
      if acc = [] then pySplitGo cs [] else acc.reverse :: pySplitGo cs []
    else pySplitGo cs (c :: acc)

/-- Python `str.split()` (no argument): runs of whitespace separate words,
no empty words are produced. -/
def pySplit (l : List Char) : List (List Char) :=
  pySplitGo l []

/-- Python `sep.join(...)` for a one-character separator. -/
def pyJoin (sep : Char) : List (List Char) → List Char
  | [] => []
  | [a] => a
  | a :: b :: rest => a ++ sep :: pyJoin sep (b :: rest)

/-- Worker for `pySplitlines`: `acc` holds the current line reversed. -/
def pySplitlinesGo : List Char → List Char → List (List Char)
  | [], acc => if acc = [] then [] else [acc.reverse]
  | '\r' :: '\n' :: cs, acc => acc.reverse :: pySplitlinesGo cs []
  | c :: cs, acc =>
    if c = '\r' ∨ pyIsLineBreakChar c then acc.reverse :: pySplitlinesGo cs []
    else pySplitlinesGo cs (c :: acc)

/-- Python `str.splitlines()`. -/
def pySplitlines (l : List Char) : List (List Char) :=
  pySplitlinesGo l []

/-- `_normalize_line` from `pdf_to_text.py`:
`" ".join(text.lower().split())`. -/
def normalizeLine (text : List Char) : List Char :=
  pyJoin ' ' (pySplit (text.map Char.toLower))

/-! ### difflib.SequenceMatcher(None, a, b).ratio()

The matcher is embedded with `isjunk=None` (so the junk set is empty) and
the default `autojunk=True` (elements occurring more than
`len(b) // 100 + 1` times in a second sequence of length at least 200 are
"popular" and removed from the index `b2j`; they cannot seed a match but
can still extend one). -/

/-- Positions of `c` in a list, ascending, starting at offset `i`. -/
def indicesOf (c : Char) : List Char → Nat → List Nat
  | [], _ => []
  | x :: xs, i =>
    if x = c then i :: indicesOf c xs (i + 1) else indicesOf c xs (i + 1)

/-- Number of occurrences of `c` in `b`. -/
def countIn (b : List Char) (c : Char) : Nat :=
  (b.filter (fun x => x = c)).length

/-- The index `b2j` of `SequenceMatcher.__chain_b`: positions of `c` in
`b`, with popular elements purged when `autojunk` applies. -/
def pyB2j (b : List Char) (c : Char) : List Nat :=
  if 200 ≤ b.length ∧ b.length / 100 + 1 < countIn b c then []
  else indicesOf c b 0

/-- Lookup in an association list with default 0 (a Python `dict` of
`int` keys as used for `j2len`). -/
def lookupD (l : List (Nat × Nat)) (k : Nat) : Nat :=
  match l.find? (fun p => p.1 = k) with
  | some p => p.2
  | none => 0

/-- State of `find_longest_match`: best block start in `a`, start in `b`,
and size. -/
structure FlmState where
  besti : Nat
  bestj : Nat
  bestsize : Nat
deriving Repr, DecidableEq

/-- Continuation applied to a `Nat` brought to literal form first.
`forceNat n f = f n` always (see `forceNat_eq` below); it is used inside
the matcher's loops purely so that kernel reduction of concrete inputs
evaluates each intermediate count once, keeping the reduction stack
shallow.  It does not change any value. -/
def forceNat {α : Type} : Nat → (Nat → α) → α
  | 0, f => f 0
  | Nat.succ n, f => f (Nat.succ n)

/-- Inner loop of `find_longest_match` over the positions `js` of `a[i]`
in `b`; returns the updated best state and the new `j2len` table. -/
def flmInner (j2len : List (Nat × Nat)) (i : Nat) :
    List Nat → FlmState → List (Nat × Nat) → FlmState × List (Nat × Nat)
  | [], st, acc => (st, acc)
  | j :: js, st, acc =>
    forceNat ((if j = 0 then 0 else lookupD j2len (j - 1)) + 1) (fun k =>
      let st' := if st.bestsize < k then (⟨i + 1 - k, j + 1 - k, k⟩ : FlmState)
        else st
      forceNat st'.bestsize (fun bs =>
        flmInner j2len i js ⟨st'.besti, st'.bestj, bs⟩ ((j, k) :: acc)))

/-- Outer loop of `find_longest_match` over the positions `is` of `a`. -/
def flmOuter (a b : List Char) (blo bhi : Nat) :
    List Nat → List (Nat × Nat) → FlmState → FlmState
  | [], _, st => st
  | i :: is, j2len, st =>
    let js := (pyB2j b (a.getD i (Char.ofNat 0))).filter
      (fun j => blo ≤ j ∧ j < bhi)
    let r := flmInner j2len i js st []
    forceNat r.1.bestsize (fun bs =>
      flmOuter a b blo bhi is r.2 ⟨r.1.besti, r.1.bestj, bs⟩)

/-- Leftward extension of the best block by equal elements (the junk set
is empty since `isjunk=None`, so the only guard is equality). -/
def extLeft (a b : List Char) (alo blo : Nat) :
    Nat → Nat → Nat → Nat → Nat × Nat × Nat
  | 0, besti, bestj, bestsize => (besti, bestj, bestsize)
  | fuel + 1, besti, bestj, bestsize =>
    if alo < besti ∧ blo < bestj ∧
        a.getD (besti - 1) (Char.ofNat 0) = b.getD (bestj - 1) (Char.ofNat 0) then
      forceNat (besti - 1) (fun bi => forceNat (bestj - 1) (fun bj =>
        extLeft a b alo blo fuel bi bj (bestsize + 1)))
    else (besti, bestj, bestsize)

/-- Rightward extension of the best block by equal elements. -/
def extRight (a b : List Char) (ahi bhi : Nat) :
    Nat → Nat → Nat → Nat → Nat × Nat × Nat
  | 0, besti, bestj, bestsize => (besti, bestj, bestsize)
  | fuel + 1, besti, bestj, bestsize =>
    if besti + bestsize < ahi ∧ bestj + bestsize < bhi ∧
        a.getD (besti + bestsize) (Char.ofNat 0)
          = b.getD (bestj + bestsize) (Char.ofNat 0) then
      forceNat (bestsize + 1) (fun bsz =>
        extRight a b ahi bhi fuel besti bestj bsz)
    else (besti, bestj, bestsize)

/-- `SequenceMatcher.find_longest_match(alo, ahi, blo, bhi)`. -/
def findLongestMatch (a b : List Char) (alo ahi blo bhi : Nat) :
    Nat × Nat × Nat :=
  let st := flmOuter a b blo bhi (List.range' alo (ahi - alo)) [] ⟨alo, blo, 0⟩
  let r := extLeft a b alo blo (st.besti - alo) st.besti st.bestj st.bestsize
  extRight a b ahi bhi (ahi - (r.1 + r.2.2)) r.1 r.2.1 r.2.2

/-- Total size of the matching blocks of `get_matching_blocks`, computed by
the same recursive region splitting (the queue order does not affect the
sum).  `fuel` bounds the recursion depth; the top-level call supplies more
than `len a + len b`, which the strictly shrinking regions never exhaust. -/
def matchesTotalFuel (a b : List Char) :
    Nat → Nat → Nat → Nat → Nat → Nat
  | 0, _, _, _, _ => 0
  | fuel + 1, alo, ahi, blo, bhi =>
    let m := findLongestMatch a b alo ahi blo bhi
    if m.2.2 = 0 then 0
    else
      m.2.2
        + (if alo < m.1 ∧ blo < m.2.1 then
            matchesTotalFuel a b fuel alo m.1 blo m.2.1
          else 0)
        + (if m.1 + m.2.2 < ahi ∧ m.2.1 + m.2.2 < bhi then
            matchesTotalFuel a b fuel (m.1 + m.2.2) ahi (m.2.1 + m.2.2) bhi
          else 0)

/-- Sum of matching-block sizes over the whole of `a` and `b`. -/
def matchesTotal (a b : List Char) : Nat :=
  matchesTotalFuel a b (a.length + b.length + 1) 0 a.length 0 b.length

/-- `SequenceMatcher(None, a, b).ratio()` as an exact rational:
`2 * M / T` with `T = len(a) + len(b)`, and 1 when `T = 0`.  Comparing
this rational with `9/10` agrees with the floating-point comparison
`ratio() > 0.9` of the source for all feasible lengths, since
`20 * M - 9 * T` is an integer. -/
def pySimilarity (a b : List Char) : ℚ :=
  if a.length + b.length = 0 then 1
  else (2 * matchesTotal a b : ℚ) / ((a.length + b.length : Nat) : ℚ)

/-- The guard `similarity > 0.9` of `_merge_page_text`, stated over
integers so that it evaluates by kernel reduction:
`2*M/T > 9/10 ↔ 9*T < 20*M` (and the ratio is 1 when `T = 0`).
`similarityExceeds_iff` below proves it equivalent to
`9/10 < pySimilarity a b`. -/
def similarityExceeds (a b : List Char) : Bool :=
  if a.length + b.length = 0 then true
  else 9 * (a.length + b.length) < 20 * matchesTotal a b

/-! ### The program under verification -/

/-- The literal separator `"\n\n[OCR additions]\n"` of `_merge_page_text`. -/
def ocrSep : List Char :=
  ("\n\n[OCR additions]\n").data

/-- The `for line in ocr_text.splitlines()` loop of `_merge_page_text`:
`existing` is the set of normalized forms already seen (a membership-only
Python `set`, modelled as a list), and the returned list is `additions`. -/
def mergeLoop (existing : List (List Char)) :
    List (List Char) → List (List Char)
  | [] => []
  | line :: rest =>
    let clean := pyStrip line
    if clean = [] then mergeLoop existing rest
    else
      let normalized := normalizeLine clean
      if normalized.length < 3 then mergeLoop existing rest
      else if normalized ∈ existing then mergeLoop existing rest
      else clean :: mergeLoop (normalized :: existing) rest

/-- The set comprehension
`{_normalize_line(line) for line in native_text.splitlines() if line.strip()}`
of `_merge_page_text` (only membership in the Python `set` is ever used,
so a list models it). -/
def existingOf (native : List Char) : List (List Char) :=
  (pySplitlines native).filterMap
    (fun line => if pyStrip line = [] then none else some (normalizeLine line))

/-- `_merge_page_text` from `pdf_to_text.py`. -/
def mergePageText (nativeText ocrText : List Char) : List Char :=
  let native := pyStrip nativeText
  let ocr := pyStrip ocrText
  if native = [] then ocr
  else if ocr = [] then native
  else if similarityExceeds (normalizeLine native) (normalizeLine ocr) then
    if ocr.length ≤ native.length then native else ocr
  else
    let additions := mergeLoop (existingOf native) (pySplitlines ocr)
    if additions = [] then native
    else native ++ ocrSep ++ pyJoin '\n' additions

/-- The `--ocr` mode: one of `off`, `auto`, `force`. -/
inductive OcrMode
  | off
  | auto
  | force
deriving Repr, DecidableEq

/-- `_should_ocr` from `pdf_to_text.py`.  `minChars` is an `int` of the
command line (`--min-chars`), hence an integer. -/
def shouldOcr (pageText : List Char) (ocrMode : OcrMode) (minChars : Int)
    (hasImages : Bool) : Bool :=
  match ocrMode with
  | .force => true
  | .off => false
  | .auto =>
    decide ((((pySplit pageText).flatten).length : Int) < minChars) || hasImages

/-- One page as yielded by the PDF-reading capability: its native text
layer and whether it carries embedded images. -/
structure PdfPage where
  nativeText : List Char
  hasImages : Bool
deriving Repr, DecidableEq

/-- The page-boundary marker `f"\n\n--- Page {index} ---\n\n"`. -/
def pageMarker (index : Nat) : List Char :=
  ("\n\n--- Page ").data ++ (Nat.repr index).data ++ (" ---\n\n").data

/-- The `for index, page in enumerate(reader.pages, start=1)` loop of
`extract_pdf_text`, with `counter` the 0-based page position (the source's
`index - 1`, which it passes to `_ocr_pdf_page`).  The OCR capability is a
function `ocr` that either returns recognized text or fails, as
`_ocr_pdf_page` raises `RuntimeError`; a failure aborts the whole loop. -/
def extractGo (ocr : Nat → Except (List Char) (List Char)) (ocrMode : OcrMode)
    (minChars : Int) : Nat → List PdfPage → Except (List Char) (List Char)
  | _, [] => Except.ok []
  | counter, page :: rest =>
    let step : Except (List Char) (List Char) :=
      if shouldOcr page.nativeText ocrMode minChars page.hasImages then
        (ocr counter).map (fun t => mergePageText page.nativeText t)
      else Except.ok page.nativeText
    match step with
    | Except.error e => Except.error e
    | Except.ok pageText =>
      match extractGo ocr ocrMode minChars (counter + 1) rest with
      | Except.error e => Except.error e
      | Except.ok restText =>
        Except.ok (pageMarker (counter + 1) ++ pageText ++ restText)

/-- `extract_pdf_text` from `pdf_to_text.py`: the concatenated chunks with
leading whitespace stripped, or the first OCR failure. -/
def extractPdfText (pages : List PdfPage)
    (ocr : Nat → Except (List Char) (List Char)) (ocrMode : OcrMode)
    (minChars : Int) : Except (List Char) (List Char) :=
  (extractGo ocr ocrMode minChars 0 pages).map pyLstrip

/-- `main` from `pdf_to_text.py`, after argument validation: on any
exception from `extract_pdf_text` it calls `parser.error`, which exits
with status 2 and writes nothing; on success it writes the text and
returns 0.  The result is the exit status and the written file content. -/
def mainRun (pages : List PdfPage)
    (ocr : Nat → Except (List Char) (List Char)) (ocrMode : OcrMode)
    (minChars : Int) : Nat × Option (List Char) :=
  match extractPdfText pages ocr ocrMode minChars with
  | Except.error _ => (2, none)
  | Except.ok text => (0, some text)

/-- A character that `pySplitlinesGo` treats as ordinary line content. -/
def plainChar (c : Char) : Prop :=
  c ≠ '\x0d' ∧ pyIsLineBreakChar c = false

instance : DecidablePred plainChar := by
  intro c
  unfold plainChar
  infer_instance

/-! ### The specification's phrasing of the additive merge

The specification describes the candidate computation in two phases:
filter the trimmed OCR lines against the native lines, then deduplicate
the survivors against each other, first occurrence winning.  The
definitions below follow that wording; the refinement lemma
`mergeLoop_eq_specCandidates` identifies them with the source's single
interleaved loop. -/

/-- Normalized forms of the non-blank lines of the native text, as the
spec words it. -/
def nativeNormLines (native : List Char) : List (List Char) :=
  ((pySplitlines native).filter (fun l => pyStrip l ≠ [])).map normalizeLine

/-- Deduplicate by normalized form, first occurrence winning. -/
def dedupKeepFirst : List (List Char) → List (List Char)
  | [] => []
  | l :: rest =>
    l :: dedupKeepFirst
      (rest.filter (fun x => ¬normalizeLine x = normalizeLine l))
termination_by ls => ls.length
decreasing_by
  exact Nat.lt_succ_of_le (List.length_filter_le _ _)

/-- The per-line filter of the spec: non-blank after trimming, normalized
form at least 3 characters, and not matching a normalized native line. -/
def candFilter (E0 : List (List Char)) (l : List Char) : Bool :=
  l ≠ [] ∧ ¬(normalizeLine l).length < 3 ∧ normalizeLine l ∉ E0

/-- The spec's candidate lines: split, trim, filter, deduplicate. -/
def specCandidates (native ocr : List Char) : List (List Char) :=
  dedupKeepFirst (((pySplitlines ocr).map pyStrip).filter
    (candFilter (nativeNormLines native)))

/-- First-occurrence deduplication with an explicit seen set, the bridge
between the source's loop and `dedupKeepFirst`. -/
def dedupSeen (seen : List (List Char)) : List (List Char) → List (List Char)
  | [] => []
  | l :: rest =>
    if normalizeLine l ∈ seen then dedupSeen seen rest
    else l :: dedupSeen (normalizeLine l :: seen) rest

/-! ### The page pipeline -/

/-- Final text of one page: reconciled with OCR output when the decision
engine requires OCR, the native text unmodified otherwise. -/
def pageOut (ocrMode : OcrMode) (minChars : Int) (p : PdfPage)
    (t : List Char) : List Char :=
  if shouldOcr p.nativeText ocrMode minChars p.hasImages then
    mergePageText p.nativeText t
  else p.nativeText

/-- The document as the specification words it: one chunk per page in
ascending 1-based order, each the page marker followed by the page's
final text, with leading whitespace stripped. -/
def specDocument (pages : List PdfPage) (f : Nat → List Char)
    (ocrMode : OcrMode) (minChars : Int) : List Char :=
  pyLstrip (((List.range pages.length).map
    (fun k => pageMarker (k + 1)
      ++ pageOut ocrMode minChars (pages.getD k ⟨[], false⟩) (f k))).flatten)

/-- Native text of the input refuting idempotence of re-reconciliation. -/
def cexNative : List Char := ("q [ocr additions]").data

/-- OCR text of the same input: a line duplicating the native line, three
long lines, one of them padded with trailing blanks, and a short line
repeated twice. -/
def cexOcr : List Char :=
  ("q [ocr additions]\ntest line alpha                     \nsecond test line beta\nthird quite long test line gamma delta\nfourth extended line with many words epsilon zeta\nabc\nabc").data

/-! ### Basic facts about the character classes and `pyStrip` -/

theorem similarityExceeds_iff (a b : List Char) :
    similarityExceeds a b = true ↔ 9 / 10 < pySimilarity a b := by
  unfold similarityExceeds pySimilarity
  by_cases h : a.length + b.length = 0
  · rw [if_pos h, if_pos h]
    norm_num
  · have hpos : 0 < a.length + b.length := Nat.pos_of_ne_zero h
    rw [if_neg h, if_neg h, decide_eq_true_eq,
      div_lt_div_iff₀ (by norm_num) (show (0:ℚ) < ((a.length + b.length : Nat) : ℚ)
        from by exact_mod_cast hpos),
      show (2 * (matchesTotal a b : ℚ) * 10) = ((20 * matchesTotal a b : Nat) : ℚ)
        from by push_cast; ring,
      show ((9:ℚ) * ((a.length + b.length : Nat) : ℚ))
          = ((9 * (a.length + b.length) : Nat) : ℚ) from by push_cast; ring,
      Nat.cast_lt]

theorem similarityExceeds_false_iff (a b : List Char) :
    similarityExceeds a b = false ↔ pySimilarity a b ≤ 9 / 10 := by
  rw [← not_lt, ← similarityExceeds_iff]
  simp

theorem breakChar_isSpace {c : Char} (h : pyIsLineBreakChar c = true) :
    pyIsSpace c = true := by
  unfold pyIsLineBreakChar at h
  unfold pyIsSpace
  rw [decide_eq_true_eq] at h
  rw [decide_eq_true_eq]
  simp only [List.mem_cons, List.not_mem_nil, or_false] at h ⊢
  omega

theorem cr_isSpace : pyIsSpace '\x0d' = true := by decide

theorem dropWhile_head_false {p : Char → Bool} :
    ∀ {l c : _} {t : List Char}, List.dropWhile p l = c :: t → p c = false
  | [], c, t => by intro h; simp [List.dropWhile] at h
  | x :: xs, c, t => by
    intro h
    by_cases hx : p x = true
    · rw [List.dropWhile_cons_of_pos hx] at h
      exact dropWhile_head_false h
    · rw [List.dropWhile_cons_of_neg hx] at h
      cases h
      simpa using hx

theorem strip_decomp (l : List Char) :
    ∃ s, (∀ c ∈ s, pyIsSpace c = true) ∧
      l.dropWhile pyIsSpace = pyStrip l ++ s := by
  refine ⟨((l.dropWhile pyIsSpace).reverse.takeWhile pyIsSpace).reverse,
    ?_, ?_⟩
  · intro c hc
    rw [List.mem_reverse] at hc
    exact List.mem_takeWhile_imp hc
  · unfold pyStrip
    rw [← List.reverse_append, List.takeWhile_append_dropWhile,
      List.reverse_reverse]

theorem strip_head_false {l : List Char} {c : Char} {t : List Char}
    (h : pyStrip l = c :: t) : pyIsSpace c = false := by
  obtain ⟨s, _, hd⟩ := strip_decomp l
  rw [h] at hd
  exact dropWhile_head_false hd

theorem strip_reverse_eq (l : List Char) :
    (pyStrip l).reverse = (l.dropWhile pyIsSpace).reverse.dropWhile pyIsSpace := by
  unfold pyStrip
  rw [List.reverse_reverse]

theorem strip_revhead_false {l : List Char} {c : Char} {t : List Char}
    (h : (pyStrip l).reverse = c :: t) : pyIsSpace c = false := by
  rw [strip_reverse_eq] at h
  exact dropWhile_head_false h

theorem dropWhile_eq_self_of_head {p : Char → Bool} {l : List Char}
    (h : ∀ c t, l = c :: t → p c = false) : l.dropWhile p = l := by
  cases l with
  | nil => rfl
  | cons c t => rw [List.dropWhile_cons_of_neg (by simp [h c t rfl])]

theorem strip_eq_self {l : List Char}
    (h1 : ∀ c t, l = c :: t → pyIsSpace c = false)
    (h2 : ∀ c t, l.reverse = c :: t → pyIsSpace c = false) :
    pyStrip l = l := by
  unfold pyStrip
  rw [dropWhile_eq_self_of_head h1, dropWhile_eq_self_of_head h2,
    List.reverse_reverse]

theorem pyStrip_idem (l : List Char) : pyStrip (pyStrip l) = pyStrip l := by
  refine strip_eq_self ?_ ?_
  · intro c t h
    exact strip_head_false h
  · intro c t h
    exact strip_revhead_false h

theorem mem_pyStrip {l : List Char} {c : Char} (h : c ∈ pyStrip l) :
    c ∈ l := by
  unfold pyStrip at h
  rw [List.mem_reverse] at h
  have h2 := (List.dropWhile_sublist (l := (l.dropWhile pyIsSpace).reverse)
    (p := pyIsSpace)).subset h
  rw [List.mem_reverse] at h2
  exact (List.dropWhile_sublist (l := l) (p := pyIsSpace)).subset h2

theorem charToNat_ofNat {n : Nat} (h : n < 55296) :
    (Char.ofNat n).toNat = n := by
  have hsize : n < 4294967296 := by omega
  unfold Char.ofNat
  rw [dif_pos (Or.inl h)]
  unfold Char.ofNatAux Char.toNat
  simp [UInt32.toNat, UInt32.ofNat', Nat.mod_eq_of_lt hsize]

theorem toLower_isSpace (c : Char) :
    pyIsSpace (Char.toLower c) = pyIsSpace c := by
  unfold Char.toLower
  by_cases h : c.toNat ≥ 65 ∧ c.toNat ≤ 90
  · rw [if_pos h]
    have h1 : (Char.ofNat (c.toNat + 32)).toNat = c.toNat + 32 :=
      charToNat_ofNat (by omega)
    unfold pyIsSpace
    rw [h1]
    simp only [List.mem_cons, List.not_mem_nil, or_false, decide_eq_decide]
    omega
  · rw [if_neg h]

/-! ### `pySplit` ignores leading and trailing whitespace -/

theorem splitGo_dropWhile (l : List Char) :
    pySplitGo (l.dropWhile pyIsSpace) [] = pySplitGo l [] := by
  induction l with
  | nil => rfl
  | cons c cs ih =>
    by_cases hc : pyIsSpace c = true
    · rw [List.dropWhile_cons_of_pos hc, ih]
      simp [pySplitGo, hc]
    · rw [List.dropWhile_cons_of_neg hc]

theorem splitGo_allSpace_nil {s : List Char}
    (hs : ∀ c ∈ s, pyIsSpace c = true) : pySplitGo s [] = [] := by
  induction s with
  | nil => rfl
  | cons c cs ih =>
    have hc : pyIsSpace c = true := hs c (List.mem_cons_self c cs)
    simp only [pySplitGo, hc, if_pos rfl, if_true]
    exact ih (fun d hd => hs d (List.mem_cons_of_mem c hd))

theorem splitGo_append_spaces {s : List Char}
    (hs : ∀ c ∈ s, pyIsSpace c = true) :
    ∀ (x acc : List Char), pySplitGo (x ++ s) acc = pySplitGo x acc := by
  intro x
  induction x with
  | nil =>
    intro acc
    cases s with
    | nil => rfl
    | cons c s2 =>
      have hc : pyIsSpace c = true := hs c (List.mem_cons_self c s2)
      have hs2 : ∀ d ∈ s2, pyIsSpace d = true :=
        fun d hd => hs d (List.mem_cons_of_mem c hd)
      by_cases hacc : acc = []
      · subst hacc
        simp [pySplitGo, hc, splitGo_allSpace_nil hs2]
      · simp [pySplitGo, hc, hacc, splitGo_allSpace_nil hs2]
  | cons c cs ih =>
    intro acc
    by_cases hc : pyIsSpace c = true <;> by_cases hacc : acc = [] <;>
      simp [pySplitGo, hc, hacc, ih]

theorem pySplit_strip (l : List Char) : pySplit (pyStrip l) = pySplit l := by
  obtain ⟨s, hs, hd⟩ := strip_decomp l
  unfold pySplit
  rw [← splitGo_dropWhile l, hd, splitGo_append_spaces hs]

theorem pyStrip_map_toLower (l : List Char) :
    pyStrip (l.map Char.toLower) = (pyStrip l).map Char.toLower := by
  have hp : (pyIsSpace ∘ Char.toLower) = pyIsSpace := by
    funext c
    exact toLower_isSpace c
  unfold pyStrip
  rw [List.dropWhile_map, hp, ← List.map_reverse, List.dropWhile_map, hp,
    ← List.map_reverse]

theorem normalizeLine_pyStrip (l : List Char) :
    normalizeLine (pyStrip l) = normalizeLine l := by
  unfold normalizeLine
  rw [show (pyStrip l).map Char.toLower = pyStrip (l.map Char.toLower) from
    (pyStrip_map_toLower l).symm, pySplit_strip]

/-! ### Structure of `pySplitlines` -/

theorem plainChar_of_not_space {c : Char} (h : pyIsSpace c = false) :
    plainChar c := by
  constructor
  · intro he
    subst he
    exact absurd h (by decide)
  · cases hb : pyIsLineBreakChar c
    · rfl
    · rw [breakChar_isSpace hb] at h
      exact absurd h (by simp)

/-- Two-step list induction matching the `"\r\n"` lookahead of
`pySplitlinesGo`. -/
theorem twoStepRec {P : List Char → Prop} (h0 : P []) (h1 : ∀ c, P [] → P [c])
    (h2 : ∀ c d cs, P cs → P (d :: cs) → P (c :: d :: cs)) : ∀ l, P l
  | [] => h0
  | [c] => h1 c h0
  | c :: d :: cs =>
    h2 c d cs (twoStepRec h0 h1 h2 cs) (twoStepRec h0 h1 h2 (d :: cs))

theorem slgo_nil (acc : List Char) :
    pySplitlinesGo [] acc = if acc = [] then [] else [acc.reverse] := rfl

theorem slgo_crnl (cs acc : List Char) :
    pySplitlinesGo ('\x0d' :: '\n' :: cs) acc
      = acc.reverse :: pySplitlinesGo cs [] := rfl

theorem slgo_cr_nil (acc : List Char) :
    pySplitlinesGo ['\x0d'] acc = [acc.reverse] := by
  simp [pySplitlinesGo]

theorem slgo_cr_cons {d : Char} (hd : d ≠ '\n') (cs acc : List Char) :
    pySplitlinesGo ('\x0d' :: d :: cs) acc
      = acc.reverse :: pySplitlinesGo (d :: cs) [] := by
  simp [pySplitlinesGo, hd]

theorem slgo_break {c : Char} (hc : pyIsLineBreakChar c = true)
    (cs acc : List Char) :
    pySplitlinesGo (c :: cs) acc = acc.reverse :: pySplitlinesGo cs [] := by
  have hcr : c ≠ '\x0d' := by
    intro he
    subst he
    exact absurd hc (by decide)
  cases cs with
  | nil => simp [pySplitlinesGo, hcr, hc]
  | cons d cs2 => simp [pySplitlinesGo, hcr, hc]

theorem slgo_plain {c : Char} (hc : plainChar c) (cs acc : List Char) :
    pySplitlinesGo (c :: cs) acc = pySplitlinesGo cs (c :: acc) := by
  cases cs with
  | nil => simp [pySplitlinesGo, hc.1, hc.2]
  | cons d cs2 => simp [pySplitlinesGo, hc.1, hc.2]

theorem slgo_append_nl (y : List Char) :
    ∀ x acc, pySplitlinesGo (x ++ '\n' :: y) acc
      = pySplitlinesGo (x ++ ['\n']) acc ++ pySplitlinesGo y [] := by
  have hnl : pyIsLineBreakChar '\n' = true := by decide
  intro x
  induction x using twoStepRec with
  | h0 =>
    intro acc
    rw [List.nil_append, List.nil_append, slgo_break hnl, slgo_break hnl,
      slgo_nil, if_pos rfl]
    simp
  | h1 c _ =>
    intro acc
    rcases eq_or_ne c '\x0d' with hc | hc
    · subst hc
      rw [List.cons_append, List.nil_append, slgo_crnl,
        List.cons_append, List.nil_append,
        show ('\x0d' : Char) :: ['\n'] = '\x0d' :: '\n' :: ([] : List Char)
          from rfl, slgo_crnl, slgo_nil, if_pos rfl]
      rfl
    · by_cases hb : pyIsLineBreakChar c = true
      · rw [List.cons_append, List.nil_append, slgo_break hb,
          slgo_break hnl, List.cons_append, List.nil_append, slgo_break hb,
          slgo_break hnl, slgo_nil, if_pos rfl]
        rfl
      · have hp : plainChar c := ⟨hc, by simpa using hb⟩
        rw [List.cons_append, List.nil_append, slgo_plain hp,
          slgo_break hnl, List.cons_append, List.nil_append, slgo_plain hp,
          slgo_break hnl, slgo_nil, if_pos rfl]
        rfl
  | h2 c d cs ih1 ih2 =>
    intro acc
    rcases eq_or_ne c '\x0d' with hc | hc
    · subst hc
      rcases eq_or_ne d '\n' with hd | hd
      · subst hd
        rw [List.cons_append, List.cons_append, slgo_crnl,
          List.cons_append, List.cons_append, slgo_crnl, ih1]
        simp
      · rw [List.cons_append, List.cons_append, slgo_cr_cons hd,
          List.cons_append, List.cons_append, slgo_cr_cons hd,
          ← List.cons_append, ← List.cons_append, ih2]
        simp
    · by_cases hb : pyIsLineBreakChar c = true
      · rw [List.cons_append, List.cons_append, slgo_break hb,
          List.cons_append, List.cons_append, slgo_break hb,
          ← List.cons_append, ← List.cons_append, ih2]
        simp
      · have hp : plainChar c := ⟨hc, by simpa using hb⟩
        rw [List.cons_append, List.cons_append, slgo_plain hp,
          List.cons_append, List.cons_append, slgo_plain hp,
          ← List.cons_append, ← List.cons_append, ih2]

theorem plainChar_ne_nl {c : Char} (hc : plainChar c) : c ≠ '\n' := by
  intro he
  subst he
  exact absurd hc.2 (by decide)

theorem slgo_append_nl_last {c : Char} (hc : plainChar c) :
    ∀ y acc, pySplitlinesGo ((y ++ [c]) ++ ['\n']) acc
      = pySplitlinesGo (y ++ [c]) acc := by
  have hnl : pyIsLineBreakChar '\n' = true := by decide
  intro y
  induction y using twoStepRec with
  | h0 =>
    intro acc
    simp only [List.nil_append, List.cons_append]
    rw [slgo_plain hc, slgo_plain hc, slgo_break hnl, slgo_nil, slgo_nil,
      if_pos rfl, if_neg (by simp)]
  | h1 e ih0 =>
    intro acc
    simp only [List.nil_append, List.cons_append] at ih0 ⊢
    rcases eq_or_ne e '\x0d' with he | he
    · subst he
      rw [slgo_cr_cons (plainChar_ne_nl hc), slgo_cr_cons (plainChar_ne_nl hc),
        ih0]
    · by_cases hb : pyIsLineBreakChar e = true
      · rw [slgo_break hb, slgo_break hb, ih0]
      · have hp : plainChar e := ⟨he, by simpa using hb⟩
        rw [slgo_plain hp, slgo_plain hp, ih0]
  | h2 e d cs ih1 ih2 =>
    intro acc
    simp only [List.nil_append, List.cons_append] at ih1 ih2 ⊢
    rcases eq_or_ne e '\x0d' with he | he
    · subst he
      rcases eq_or_ne d '\n' with hd | hd
      · subst hd
        rw [slgo_crnl, slgo_crnl, ih1]
      · rw [slgo_cr_cons hd, slgo_cr_cons hd, ih2]
    · by_cases hb : pyIsLineBreakChar e = true
      · rw [slgo_break hb, slgo_break hb, ih2]
      · have hp : plainChar e := ⟨he, by simpa using hb⟩
        rw [slgo_plain hp, slgo_plain hp, ih2]

theorem slgo_lines_plain :
    ∀ x acc, (∀ ch ∈ acc, plainChar ch) →
      ∀ l ∈ pySplitlinesGo x acc, ∀ ch ∈ l, plainChar ch := by
  intro x
  induction x using twoStepRec with
  | h0 =>
    intro acc hacc l hl ch hch
    rw [slgo_nil] at hl
    by_cases h : acc = []
    · rw [if_pos h] at hl
      exact absurd hl (List.not_mem_nil l)
    · rw [if_neg h] at hl
      rcases List.mem_singleton.mp hl with rfl
      exact hacc ch (List.mem_reverse.mp hch)
  | h1 e ih0 =>
    intro acc hacc l hl ch hch
    rcases eq_or_ne e '\x0d' with he | he
    · subst he
      rw [slgo_cr_nil] at hl
      rcases List.mem_singleton.mp hl with rfl
      exact hacc ch (List.mem_reverse.mp hch)
    · by_cases hb : pyIsLineBreakChar e = true
      · rw [slgo_break hb, slgo_nil, if_pos rfl] at hl
        rcases List.mem_singleton.mp hl with rfl
        exact hacc ch (List.mem_reverse.mp hch)
      · have hp : plainChar e := ⟨he, by simpa using hb⟩
        rw [slgo_plain hp] at hl
        refine ih0 (e :: acc) ?_ l hl ch hch
        intro d hd
        rcases List.mem_cons.mp hd with rfl | hd2
        · exact hp
        · exact hacc d hd2
  | h2 e d cs ih1 ih2 =>
    intro acc hacc l hl ch hch
    rcases eq_or_ne e '\x0d' with he | he
    · subst he
      rcases eq_or_ne d '\n' with hd | hd
      · subst hd
        rw [slgo_crnl] at hl
        rcases List.mem_cons.mp hl with rfl | hl2
        · exact hacc ch (List.mem_reverse.mp hch)
        · exact ih1 [] (by intro x hx; exact absurd hx (List.not_mem_nil x))
            l hl2 ch hch
      · rw [slgo_cr_cons hd] at hl
        rcases List.mem_cons.mp hl with rfl | hl2
        · exact hacc ch (List.mem_reverse.mp hch)
        · exact ih2 [] (by intro x hx; exact absurd hx (List.not_mem_nil x))
            l hl2 ch hch
    · by_cases hb : pyIsLineBreakChar e = true
      · rw [slgo_break hb] at hl
        rcases List.mem_cons.mp hl with rfl | hl2
        · exact hacc ch (List.mem_reverse.mp hch)
        · exact ih2 [] (by intro x hx; exact absurd hx (List.not_mem_nil x))
            l hl2 ch hch
      · have hp : plainChar e := ⟨he, by simpa using hb⟩
        rw [slgo_plain hp] at hl
        refine ih2 (e :: acc) ?_ l hl ch hch
        intro f hf
        rcases List.mem_cons.mp hf with rfl | hf2
        · exact hp
        · exact hacc f hf2

theorem lines_plain (x : List Char) :
    ∀ l ∈ pySplitlines x, ∀ ch ∈ l, plainChar ch :=
  slgo_lines_plain x [] (by intro d hd; exact absurd hd (List.not_mem_nil d))

theorem slgo_all_plain {a : List Char} (ha : ∀ ch ∈ a, plainChar ch) :
    ∀ acc, pySplitlinesGo a acc
      = if acc ++ a = [] then [] else [acc.reverse ++ a] := by
  induction a with
  | nil =>
    intro acc
    rw [slgo_nil]
    cases acc <;> simp
  | cons c cs ih =>
    intro acc
    have hc : plainChar c := ha c (List.mem_cons_self c cs)
    rw [slgo_plain hc, ih (fun d hd => ha d (List.mem_cons_of_mem c hd))]
    simp

theorem slgo_all_plain_nl {a : List Char} (ha : ∀ ch ∈ a, plainChar ch) :
    ∀ acc, pySplitlinesGo (a ++ ['\n']) acc = [acc.reverse ++ a] := by
  induction a with
  | nil =>
    intro acc
    rw [List.nil_append, slgo_break (by decide), slgo_nil, if_pos rfl]
    simp
  | cons c cs ih =>
    intro acc
    rw [List.cons_append, slgo_plain (ha c (List.mem_cons_self c cs)),
      ih (fun d hd => ha d (List.mem_cons_of_mem c hd))]
    simp

theorem splitlines_pyJoin :
    ∀ adds : List (List Char),
      (∀ a ∈ adds, a ≠ [] ∧ ∀ ch ∈ a, plainChar ch) → adds ≠ [] →
      pySplitlinesGo (pyJoin '\n' adds) [] = adds := by
  intro adds
  induction adds with
  | nil => intro _ hne; exact absurd rfl hne
  | cons a rest ih =>
    intro h hne
    cases rest with
    | nil =>
      show pySplitlinesGo a [] = [a]
      rw [slgo_all_plain (h a (List.mem_cons_self a [])).2,
        if_neg (by simp [(h a (List.mem_cons_self a [])).1])]
      simp
    | cons b rest2 =>
      show pySplitlinesGo (a ++ '\n' :: pyJoin '\n' (b :: rest2)) [] = _
      rw [slgo_append_nl (pyJoin '\n' (b :: rest2)) a [],
        slgo_all_plain_nl (h a (List.mem_cons_self a (b :: rest2))).2,
        ih (fun x hx => h x (List.mem_cons_of_mem a hx)) (by simp)]
      simp

/-! ### Properties of the additions loop -/

theorem mergeLoop_mem :
    ∀ {E ls : List (List Char)} {a : List Char}, a ∈ mergeLoop E ls →
      ∃ l ∈ ls, a = pyStrip l ∧ a ≠ [] := by
  intro E ls
  induction ls generalizing E with
  | nil => intro a ha; exact absurd ha (List.not_mem_nil a)
  | cons line rest ih =>
    intro a ha
    unfold mergeLoop at ha
    by_cases h1 : pyStrip line = []
    · rw [if_pos h1] at ha
      obtain ⟨l, hl, he⟩ := ih ha
      exact ⟨l, List.mem_cons_of_mem line hl, he⟩
    · rw [if_neg h1] at ha
      by_cases h2 : (normalizeLine (pyStrip line)).length < 3
      · rw [if_pos h2] at ha
        obtain ⟨l, hl, he⟩ := ih ha
        exact ⟨l, List.mem_cons_of_mem line hl, he⟩
      · rw [if_neg h2] at ha
        by_cases h3 : normalizeLine (pyStrip line) ∈ E
        · rw [if_pos h3] at ha
          obtain ⟨l, hl, he⟩ := ih ha
          exact ⟨l, List.mem_cons_of_mem line hl, he⟩
        · rw [if_neg h3] at ha
          rcases List.mem_cons.mp ha with rfl | ha2
          · exact ⟨line, List.mem_cons_self line rest, rfl, h1⟩
          · obtain ⟨l, hl, he⟩ := ih ha2
            exact ⟨l, List.mem_cons_of_mem line hl, he⟩

theorem mergeLoop_nil_of_mem {E : List (List Char)} :
    ∀ {ls : List (List Char)},
      (∀ l ∈ ls, pyStrip l ≠ [] → ¬(normalizeLine (pyStrip l)).length < 3 →
        normalizeLine (pyStrip l) ∈ E) →
      mergeLoop E ls = [] := by
  intro ls
  induction ls with
  | nil => intro _; rfl
  | cons line rest ih =>
    intro h
    unfold mergeLoop
    by_cases h1 : pyStrip line = []
    · rw [if_pos h1]
      exact ih (fun l hl => h l (List.mem_cons_of_mem line hl))
    · rw [if_neg h1]
      by_cases h2 : (normalizeLine (pyStrip line)).length < 3
      · rw [if_pos h2]
        exact ih (fun l hl => h l (List.mem_cons_of_mem line hl))
      · rw [if_neg h2,
          if_pos (h line (List.mem_cons_self line rest) h1 h2)]
        exact ih (fun l hl => h l (List.mem_cons_of_mem line hl))

theorem mergeLoop_covers :
    ∀ {E ls : List (List Char)}, ∀ l ∈ ls, pyStrip l ≠ [] →
      ¬(normalizeLine (pyStrip l)).length < 3 →
      normalizeLine (pyStrip l) ∈ E ∨
        normalizeLine (pyStrip l) ∈ (mergeLoop E ls).map normalizeLine := by
  intro E ls
  induction ls generalizing E with
  | nil => intro l hl; exact absurd hl (List.not_mem_nil l)
  | cons line rest ih =>
    intro l hl hne hlen
    unfold mergeLoop
    by_cases h1 : pyStrip line = []
    · rw [if_pos h1]
      rcases List.mem_cons.mp hl with rfl | hl2
      · exact absurd h1 hne
      · exact ih l hl2 hne hlen
    · rw [if_neg h1]
      by_cases h2 : (normalizeLine (pyStrip line)).length < 3
      · rw [if_pos h2]
        rcases List.mem_cons.mp hl with rfl | hl2
        · exact absurd h2 (by
            intro hcon
            exact hlen h2)
        · exact ih l hl2 hne hlen
      · rw [if_neg h2]
        by_cases h3 : normalizeLine (pyStrip line) ∈ E
        · rw [if_pos h3]
          rcases List.mem_cons.mp hl with rfl | hl2
          · exact Or.inl h3
          · exact ih l hl2 hne hlen
        · rw [if_neg h3]
          rcases List.mem_cons.mp hl with rfl | hl2
          · refine Or.inr ?_
            rw [List.map_cons]
            exact List.mem_cons_self _ _
          · rcases ih l hl2 hne hlen (E := normalizeLine (pyStrip line) :: E)
              with hmem | hmem
            · rcases List.mem_cons.mp hmem with he | he
              · refine Or.inr ?_
                rw [List.map_cons, he]
                exact List.mem_cons_self _ _
              · exact Or.inl he
            · refine Or.inr ?_
              rw [List.map_cons]
              exact List.mem_cons_of_mem _ hmem

/-- `mergePageText` with its `let` bindings expanded, for case splitting. -/
theorem mergePageText_eq (nativeText ocrText : List Char) :
    mergePageText nativeText ocrText =
      if pyStrip nativeText = [] then pyStrip ocrText
      else if pyStrip ocrText = [] then pyStrip nativeText
      else if similarityExceeds (normalizeLine (pyStrip nativeText))
          (normalizeLine (pyStrip ocrText)) then
        if (pyStrip ocrText).length ≤ (pyStrip nativeText).length
          then pyStrip nativeText else pyStrip ocrText
      else if mergeLoop (existingOf (pyStrip nativeText))
          (pySplitlines (pyStrip ocrText)) = [] then pyStrip nativeText
      else pyStrip nativeText ++ ocrSep ++ pyJoin '\n'
        (mergeLoop (existingOf (pyStrip nativeText))
          (pySplitlines (pyStrip ocrText))) := rfl

theorem strip_concat_shape {n : List Char} (h : pyStrip n ≠ []) :
    ∃ y c, pyStrip n = y ++ [c] ∧ plainChar c := by
  cases hr : (pyStrip n).reverse with
  | nil =>
    rw [List.reverse_eq_nil_iff] at hr
    exact absurd hr h
  | cons c t =>
    refine ⟨t.reverse, c, ?_, plainChar_of_not_space (strip_revhead_false hr)⟩
    rw [show pyStrip n = (c :: t).reverse from by
      rw [← hr, List.reverse_reverse], List.reverse_cons]

theorem adds_good {E : List (List Char)} {o : List Char} :
    ∀ a ∈ mergeLoop E (pySplitlines o),
      a ≠ [] ∧ ∀ ch ∈ a, plainChar ch := by
  intro a ha
  obtain ⟨l, hl, he, hne⟩ := mergeLoop_mem ha
  refine ⟨hne, ?_⟩
  intro ch hch
  rw [he] at hch
  exact lines_plain o l hl ch (mem_pyStrip hch)

theorem adds_stripped {E : List (List Char)} {ls : List (List Char)} :
    ∀ a ∈ mergeLoop E ls, pyStrip a = a ∧ a ≠ [] := by
  intro a ha
  obtain ⟨l, _, he, hne⟩ := mergeLoop_mem ha
  refine ⟨?_, hne⟩
  rw [he, pyStrip_idem]

theorem splitlines_merged (y0 : List Char) (c0 : Char) (hc0 : plainChar c0)
    (adds : List (List Char)) (hadds : adds ≠ [])
    (hgood : ∀ a ∈ adds, a ≠ [] ∧ ∀ ch ∈ a, plainChar ch) :
    pySplitlines ((y0 ++ [c0]) ++ ocrSep ++ pyJoin '\n' adds)
      = pySplitlines (y0 ++ [c0])
          ++ [[], ("[OCR additions]").data] ++ adds := by
  have hshape : (y0 ++ [c0]) ++ ocrSep ++ pyJoin '\n' adds
      = (y0 ++ [c0]) ++ '\n' :: ('\n' :: (("[OCR additions]").data
          ++ '\n' :: pyJoin '\n' adds)) := by
    simp [ocrSep]
  unfold pySplitlines
  rw [hshape, slgo_append_nl, slgo_append_nl_last hc0]
  have e2 := slgo_append_nl (("[OCR additions]").data
    ++ '\n' :: pyJoin '\n' adds) [] []
  rw [List.nil_append, List.nil_append] at e2
  rw [e2]
  have e3 := slgo_append_nl (pyJoin '\n' adds) (("[OCR additions]").data) []
  rw [e3, slgo_all_plain_nl (by decide) [],
    splitlines_pyJoin adds hgood hadds,
    show pySplitlinesGo ['\n'] [] = [[]] from by decide]
  simp

theorem filterMap_stripped_eq_map :
    ∀ {adds : List (List Char)}, (∀ a ∈ adds, pyStrip a = a ∧ a ≠ []) →
      adds.filterMap
        (fun line => if pyStrip line = [] then none
          else some (normalizeLine line))
      = adds.map normalizeLine := by
  intro adds
  induction adds with
  | nil => intro _; rfl
  | cons a rest ih =>
    intro h
    rw [List.filterMap_cons, List.map_cons]
    have ha := h a (List.mem_cons_self a rest)
    rw [ha.1, if_neg ha.2]
    rw [ih (fun x hx => h x (List.mem_cons_of_mem a hx))]

theorem existingOf_merged (y0 : List Char) (c0 : Char) (hc0 : plainChar c0)
    (adds : List (List Char)) (hadds : adds ≠ [])
    (hgood : ∀ a ∈ adds, a ≠ [] ∧ ∀ ch ∈ a, plainChar ch)
    (hstrip : ∀ a ∈ adds, pyStrip a = a ∧ a ≠ []) :
    existingOf ((y0 ++ [c0]) ++ ocrSep ++ pyJoin '\n' adds)
      = existingOf (y0 ++ [c0])
          ++ [normalizeLine (("[OCR additions]").data)]
          ++ adds.map normalizeLine := by
  unfold existingOf
  rw [splitlines_merged y0 c0 hc0 adds hadds hgood,
    List.filterMap_append, List.filterMap_append,
    filterMap_stripped_eq_map hstrip,
    show (([[], ("[OCR additions]").data] : List (List Char)).filterMap
      (fun line => if pyStrip line = [] then none
        else some (normalizeLine line)))
      = [normalizeLine (("[OCR additions]").data)] from by decide]

theorem mergeLoop_self (t : List Char) :
    mergeLoop (existingOf t) (pySplitlines t) = [] := by
  apply mergeLoop_nil_of_mem
  intro l hl h1 _
  rw [normalizeLine_pyStrip]
  unfold existingOf
  exact List.mem_filterMap.mpr ⟨l, hl, by rw [if_neg h1]⟩

/-- Reconciling against an OCR text whose trimmed form equals the trimmed
native text returns the trimmed native text. -/
theorem merge_same {n o : List Char} (h : pyStrip n = pyStrip o) :
    mergePageText n o = pyStrip n := by
  rw [mergePageText_eq, ← h]
  by_cases h1 : pyStrip n = []
  · rw [if_pos h1, h1]
  · rw [if_neg h1, if_neg h1]
    by_cases h3 : similarityExceeds (normalizeLine (pyStrip n))
        (normalizeLine (pyStrip n)) = true
    · rw [if_pos h3, if_pos (le_refl _)]
    · rw [if_neg h3, if_pos (mergeLoop_self (pyStrip n))]

theorem pyJoin_concat (sep : Char) :
    ∀ front a, front ≠ [] →
      pyJoin sep (front ++ [a]) = pyJoin sep front ++ sep :: a := by
  intro front
  induction front with
  | nil => intro a h; exact absurd rfl h
  | cons b rest ih =>
    intro a _
    cases rest with
    | nil => rfl
    | cons c rest2 =>
      show b ++ sep :: pyJoin sep ((c :: rest2) ++ [a]) = _
      rw [ih a (by simp)]
      simp [pyJoin]

theorem pyStrip_assembled {N mid a : List Char}
    (hN : pyStrip N = N) (hNne : N ≠ []) (ha : pyStrip a = a) (hane : a ≠ []) :
    pyStrip (N ++ mid ++ a) = N ++ mid ++ a := by
  apply strip_eq_self
  · intro c t h
    cases N with
    | nil => exact absurd rfl hNne
    | cons c0 t0 =>
      rw [List.cons_append, List.cons_append] at h
      have hc0 : c = c0 := (List.cons.injEq _ _ _ _ ▸ h).1.symm
      subst hc0
      exact strip_head_false hN
  · intro c t h
    rw [List.reverse_append, List.reverse_append] at h
    cases har : a.reverse with
    | nil =>
      rw [List.reverse_eq_nil_iff] at har
      exact absurd har hane
    | cons c1 t1 =>
      rw [har, List.cons_append] at h
      have hc1 : c = c1 := (List.cons.injEq _ _ _ _ ▸ h).1.symm
      subst hc1
      have : (pyStrip a).reverse = c :: t1 := by rw [ha, har]
      exact strip_revhead_false this

/-- A second reconciliation of the merged result against the same OCR
text never appends another additions section: it yields the merged result
unchanged, or the trimmed OCR text (the latter only out of the
high-similarity branch). -/
theorem merge_merge (n o : List Char) :
    mergePageText (mergePageText n o) o = mergePageText n o ∨
      mergePageText (mergePageText n o) o = pyStrip o := by
  by_cases h1 : pyStrip n = []
  · have hM : mergePageText n o = pyStrip o := by
      rw [mergePageText_eq, if_pos h1]
    rw [hM]
    left
    rw [merge_same (pyStrip_idem o), pyStrip_idem]
  · by_cases h2 : pyStrip o = []
    · have hM : mergePageText n o = pyStrip n := by
        rw [mergePageText_eq, if_neg h1, if_pos h2]
      rw [hM]
      left
      rw [mergePageText_eq, pyStrip_idem, if_neg h1, if_pos h2]
    · by_cases h3 : similarityExceeds (normalizeLine (pyStrip n))
          (normalizeLine (pyStrip o)) = true
      · by_cases h4 : (pyStrip o).length ≤ (pyStrip n).length
        · have hM : mergePageText n o = pyStrip n := by
            rw [mergePageText_eq, if_neg h1, if_neg h2, if_pos h3, if_pos h4]
          rw [hM]
          left
          rw [mergePageText_eq, pyStrip_idem, if_neg h1, if_neg h2,
            if_pos h3, if_pos h4]
        · have hM : mergePageText n o = pyStrip o := by
            rw [mergePageText_eq, if_neg h1, if_neg h2, if_pos h3, if_neg h4]
          rw [hM]
          left
          rw [merge_same (pyStrip_idem o), pyStrip_idem]
      · by_cases h5 : mergeLoop (existingOf (pyStrip n))
            (pySplitlines (pyStrip o)) = []
        · have hM : mergePageText n o = pyStrip n := by
            rw [mergePageText_eq, if_neg h1, if_neg h2, if_neg h3, if_pos h5]
          rw [hM]
          left
          rw [mergePageText_eq, pyStrip_idem, if_neg h1, if_neg h2,
            if_neg h3, if_pos h5]
        · obtain ⟨y0, c0, hshape, hc0⟩ := strip_concat_shape h1
          have hM : mergePageText n o = pyStrip n ++ ocrSep ++ pyJoin '\n'
              (mergeLoop (existingOf (pyStrip n))
                (pySplitlines (pyStrip o))) := by
            rw [mergePageText_eq, if_neg h1, if_neg h2, if_neg h3, if_neg h5]
          have hgood : ∀ x ∈ mergeLoop (existingOf (pyStrip n))
              (pySplitlines (pyStrip o)), x ≠ [] ∧ ∀ ch ∈ x, plainChar ch :=
            fun x hx => adds_good x hx
          have hstrips : ∀ x ∈ mergeLoop (existingOf (pyStrip n))
              (pySplitlines (pyStrip o)), pyStrip x = x ∧ x ≠ [] :=
            fun x hx => adds_stripped x hx
          have hMstrip : pyStrip (pyStrip n ++ ocrSep ++ pyJoin '\n'
              (mergeLoop (existingOf (pyStrip n)) (pySplitlines (pyStrip o))))
              = pyStrip n ++ ocrSep ++ pyJoin '\n'
                (mergeLoop (existingOf (pyStrip n))
                  (pySplitlines (pyStrip o))) := by
            rcases List.eq_nil_or_concat (mergeLoop (existingOf (pyStrip n))
                (pySplitlines (pyStrip o))) with hnil | ⟨front, a, hfa⟩
            · exact absurd hnil h5
            · rw [List.concat_eq_append] at hfa
              have hmema : a ∈ mergeLoop (existingOf (pyStrip n))
                  (pySplitlines (pyStrip o)) := by
                rw [hfa]
                exact List.mem_append_right front (List.mem_singleton.mpr rfl)
              have ha := hstrips a hmema
              rw [hfa]
              by_cases hfront : front = []
              · subst hfront
                rw [List.nil_append]
                show pyStrip (pyStrip n ++ ocrSep ++ a) = _
                exact pyStrip_assembled (pyStrip_idem n) h1 ha.1 ha.2
              · rw [pyJoin_concat '\n' front a hfront,
                  show pyStrip n ++ ocrSep ++ (pyJoin '\n' front ++ '\n' :: a)
                    = pyStrip n ++ (ocrSep ++ pyJoin '\n' front ++ ['\n']) ++ a
                    from by simp [List.append_assoc]]
                exact pyStrip_assembled (pyStrip_idem n) h1 ha.1 ha.2
          have hMne : pyStrip n ++ ocrSep ++ pyJoin '\n'
              (mergeLoop (existingOf (pyStrip n)) (pySplitlines (pyStrip o)))
              ≠ [] := by
            cases hpn : pyStrip n with
            | nil => exact absurd hpn h1
            | cons c0' t0' => simp
          rw [hM, mergePageText_eq, hMstrip, if_neg hMne, if_neg h2]
          by_cases h6 : similarityExceeds (normalizeLine (pyStrip n ++ ocrSep
              ++ pyJoin '\n' (mergeLoop (existingOf (pyStrip n))
                (pySplitlines (pyStrip o)))))
              (normalizeLine (pyStrip o)) = true
          · rw [if_pos h6]
            by_cases h7 : (pyStrip o).length ≤ (pyStrip n ++ ocrSep
                ++ pyJoin '\n' (mergeLoop (existingOf (pyStrip n))
                  (pySplitlines (pyStrip o)))).length
            · rw [if_pos h7]
              left
              rfl
            · rw [if_neg h7]
              right
              rfl
          · rw [if_neg h6]
            have hEx : existingOf (pyStrip n ++ ocrSep ++ pyJoin '\n'
                (mergeLoop (existingOf (pyStrip n))
                  (pySplitlines (pyStrip o))))
                = existingOf (pyStrip n)
                    ++ [normalizeLine (("[OCR additions]").data)]
                    ++ (mergeLoop (existingOf (pyStrip n))
                      (pySplitlines (pyStrip o))).map normalizeLine := by
              have hh := existingOf_merged y0 c0 hc0
                (mergeLoop (existingOf (pyStrip n)) (pySplitlines (pyStrip o)))
                h5 hgood hstrips
              rw [← hshape] at hh
              exact hh
            have hempty : mergeLoop (existingOf (pyStrip n ++ ocrSep
                ++ pyJoin '\n' (mergeLoop (existingOf (pyStrip n))
                  (pySplitlines (pyStrip o)))))
                (pySplitlines (pyStrip o)) = [] := by
              apply mergeLoop_nil_of_mem
              intro l hl hlne hllen
              rw [hEx]
              rcases mergeLoop_covers (E := existingOf (pyStrip n))
                  l hl hlne hllen with hm | hm
              · exact List.mem_append_left _ (List.mem_append_left _ hm)
              · exact List.mem_append_right _ hm
            rw [if_pos hempty]
            left
            rfl

theorem existingOf_eq_nativeNormLines (native : List Char) :
    existingOf native = nativeNormLines native := by
  unfold existingOf nativeNormLines
  induction pySplitlines native with
  | nil => rfl
  | cons a rest ih =>
    rw [List.filterMap_cons, List.filter_cons]
    by_cases h : pyStrip a = []
    · rw [if_pos h, if_neg (by simp [h]), ih]
    · rw [if_neg h, if_pos (by simp [h]), List.map_cons, ih]

theorem mergeLoop_eq_dedupSeen :
    ∀ (ls seen E0 : List (List Char)),
      mergeLoop (seen ++ E0) ls
        = dedupSeen seen ((ls.map pyStrip).filter (candFilter E0)) := by
  intro ls
  induction ls with
  | nil => intro seen E0; rfl
  | cons line rest ih =>
    intro seen E0
    unfold mergeLoop
    rw [List.map_cons, List.filter_cons]
    by_cases h1 : pyStrip line = []
    · rw [if_pos h1, if_neg (by simp [candFilter, h1]), ih]
    · rw [if_neg h1]
      by_cases h2 : (normalizeLine (pyStrip line)).length < 3
      · rw [if_pos h2, if_neg (by simp [candFilter, h1, h2]), ih]
      · rw [if_neg h2]
        by_cases h3 : normalizeLine (pyStrip line) ∈ seen ++ E0
        · rw [if_pos h3]
          by_cases hE0 : normalizeLine (pyStrip line) ∈ E0
          · rw [if_neg (by simp [candFilter, h1, h2, hE0]), ih]
          · rcases List.mem_append.mp h3 with hseen | hE0x
            · rw [if_pos (by simp [candFilter, h1, h2, hE0])]
              unfold dedupSeen
              rw [if_pos hseen, ih]
            · exact absurd hE0x hE0
        · rw [if_neg h3]
          have h3a : normalizeLine (pyStrip line) ∉ seen :=
            fun hc => h3 (List.mem_append.mpr (Or.inl hc))
          have h3b : normalizeLine (pyStrip line) ∉ E0 :=
            fun hc => h3 (List.mem_append.mpr (Or.inr hc))
          rw [if_pos (by simp [candFilter, h1, h2, h3b])]
          unfold dedupSeen
          rw [if_neg h3a, ← List.cons_append, ih]

theorem dedupKeepFirst_nil : dedupKeepFirst [] = [] := by
  rw [dedupKeepFirst.eq_def]

theorem dedupKeepFirst_cons (l : List Char) (rest : List (List Char)) :
    dedupKeepFirst (l :: rest)
      = l :: dedupKeepFirst
          (rest.filter (fun x => ¬normalizeLine x = normalizeLine l)) := by
  rw [dedupKeepFirst.eq_def]

theorem dedupSeen_eq_dedupKeepFirst :
    ∀ (ls seen : List (List Char)),
      dedupSeen seen ls
        = dedupKeepFirst (ls.filter (fun x => normalizeLine x ∉ seen)) := by
  intro ls
  induction ls with
  | nil => intro seen; rw [List.filter_nil, dedupKeepFirst_nil]; rfl
  | cons l rest ih =>
    intro seen
    unfold dedupSeen
    rw [List.filter_cons]
    by_cases h : normalizeLine l ∈ seen
    · rw [if_pos h, if_neg (by simp [h]), ih]
    · rw [if_neg h, if_pos (by simp [h]), ih (normalizeLine l :: seen),
        dedupKeepFirst_cons, List.filter_filter]
      congr 2
      apply List.filter_congr
      intro x _
      rcases Decidable.em (normalizeLine x = normalizeLine l) with he | he <;>
        rcases Decidable.em (normalizeLine x ∈ seen) with hm | hm <;>
          simp [he, hm]

theorem mergeLoop_eq_specCandidates (native ocr : List Char) :
    mergeLoop (existingOf native) (pySplitlines ocr)
      = specCandidates native ocr := by
  have h := mergeLoop_eq_dedupSeen (pySplitlines ocr) [] (existingOf native)
  rw [List.nil_append] at h
  rw [h, dedupSeen_eq_dedupKeepFirst, existingOf_eq_nativeNormLines]
  unfold specCandidates
  congr 1
  rw [List.filter_filter]
  apply List.filter_congr
  intro x _
  simp

theorem extractGo_ok (f : Nat → List Char) (ocrMode : OcrMode)
    (minChars : Int) :
    ∀ (ps : List PdfPage) (c : Nat),
      extractGo (fun i => Except.ok (f i)) ocrMode minChars c ps
        = Except.ok (((List.range ps.length).map
            (fun k => pageMarker (c + k + 1)
              ++ pageOut ocrMode minChars (ps.getD k ⟨[], false⟩)
                  (f (c + k)))).flatten) := by
  intro ps
  induction ps with
  | nil => intro c; rfl
  | cons p rest ih =>
    intro c
    unfold extractGo
    have hstep : (if shouldOcr p.nativeText ocrMode minChars p.hasImages then
        (Except.ok (f c) : Except (List Char) (List Char)).map
          (fun t => mergePageText p.nativeText t)
      else Except.ok p.nativeText) = Except.ok (pageOut ocrMode minChars p (f c)) := by
      unfold pageOut
      by_cases hso : shouldOcr p.nativeText ocrMode minChars p.hasImages = true
      · rw [if_pos hso, if_pos hso]
        rfl
      · rw [if_neg hso, if_neg hso]
    rw [hstep, ih (c + 1)]
    show Except.ok _ = Except.ok _
    congr 1
    have hmap : (List.map
        (fun k => pageMarker (c + 1 + k + 1)
          ++ pageOut ocrMode minChars (rest.getD k ⟨[], false⟩)
            (f (c + 1 + k)))
        (List.range rest.length))
      = (List.map
        ((fun k => pageMarker (c + k + 1)
          ++ pageOut ocrMode minChars ((p :: rest).getD k ⟨[], false⟩)
            (f (c + k))) ∘ Nat.succ)
        (List.range rest.length)) := by
      apply List.map_congr_left
      intro k _
      show _ = pageMarker (c + (k + 1) + 1)
        ++ pageOut ocrMode minChars ((p :: rest).getD (k + 1) ⟨[], false⟩)
          (f (c + (k + 1)))
      rw [List.getD_cons_succ, show c + (k + 1) = c + 1 + k from by omega]
    rw [List.length_cons, List.range_succ_eq_map, List.map_cons,
      List.flatten_cons, List.map_map, ← hmap]
    rfl

theorem extractPdfText_ok (pages : List PdfPage) (f : Nat → List Char)
    (ocrMode : OcrMode) (minChars : Int) :
    extractPdfText pages (fun i => Except.ok (f i)) ocrMode minChars
      = Except.ok (specDocument pages f ocrMode minChars) := by
  unfold extractPdfText specDocument
  rw [extractGo_ok]
  have hmap : (List.map
      (fun k => pageMarker (0 + k + 1)
        ++ pageOut ocrMode minChars (pages.getD k ⟨[], false⟩) (f (0 + k)))
      (List.range pages.length))
    = (List.map
      (fun k => pageMarker (k + 1)
        ++ pageOut ocrMode minChars (pages.getD k ⟨[], false⟩) (f k))
      (List.range pages.length)) := by
    apply List.map_congr_left
    intro k _
    rw [Nat.zero_add]
  rw [hmap]
  rfl

theorem extractGo_error (ocr : Nat → Except (List Char) (List Char))
    (ocrMode : OcrMode) (minChars : Int) (e : List Char) :
    ∀ (ps : List PdfPage) (c k : Nat), k < ps.length →
      (∀ j, j < k →
        shouldOcr (ps.getD j ⟨[], false⟩).nativeText ocrMode minChars
          (ps.getD j ⟨[], false⟩).hasImages = true →
        ∃ t, ocr (c + j) = Except.ok t) →
      shouldOcr (ps.getD k ⟨[], false⟩).nativeText ocrMode minChars
        (ps.getD k ⟨[], false⟩).hasImages = true →
      ocr (c + k) = Except.error e →
      extractGo ocr ocrMode minChars c ps = Except.error e := by
  intro ps
  induction ps with
  | nil =>
    intro c k hk
    exact absurd hk (by simp)
  | cons p rest ih =>
    intro c k hk hprev hso herr
    unfold extractGo
    cases k with
    | zero =>
      rw [List.getD_cons_zero] at hso
      rw [Nat.add_zero] at herr
      rw [if_pos hso, herr]
      rfl
    | succ k2 =>
      have hstep : (if shouldOcr p.nativeText ocrMode minChars p.hasImages then
          (ocr c).map (fun t => mergePageText p.nativeText t)
        else Except.ok p.nativeText).isOk = true ∨
          (if shouldOcr p.nativeText ocrMode minChars p.hasImages then
          (ocr c).map (fun t => mergePageText p.nativeText t)
        else Except.ok p.nativeText) = Except.error e := by
        by_cases hso0 : shouldOcr p.nativeText ocrMode minChars p.hasImages = true
        · obtain ⟨t, ht⟩ := hprev 0 (Nat.succ_pos k2)
            (by rw [List.getD_cons_zero]; exact hso0)
          rw [if_pos hso0, Nat.add_zero] at *
          rw [ht]
          left
          rfl
        · rw [if_neg hso0]
          left
          rfl
      have hrest : extractGo ocr ocrMode minChars (c + 1) rest
          = Except.error e := by
        apply ih (c + 1) k2
        · exact Nat.lt_of_succ_lt_succ hk
        · intro j hj hsoj
          obtain ⟨t, ht⟩ := hprev (j + 1) (Nat.succ_lt_succ hj)
            (by rw [List.getD_cons_succ]; exact hsoj)
          exact ⟨t, by rw [show c + 1 + j = c + (j + 1) from by omega]; exact ht⟩
        · rw [← List.getD_cons_succ (x := p)]
          exact hso
        · rw [show c + 1 + k2 = c + (k2 + 1) from by omega]
          exact herr
      rcases hstep with hok | hbad
      · cases hs : (if shouldOcr p.nativeText ocrMode minChars p.hasImages then
            (ocr c).map (fun t => mergePageText p.nativeText t)
          else Except.ok p.nativeText) with
        | error e2 =>
          rw [hs] at hok
          exact absurd hok (by simp [Except.isOk, Except.toBool])
        | ok pageText => rw [hrest]
      · rw [hbad]

/-! ### The claims -/

/-- C3: with mode `auto`, `_should_ocr` returns true exactly when the
count of non-whitespace characters of the native text is strictly less
than `min_chars` or the page has images; in particular with
`min_chars = 0` and no images it returns false. -/
theorem C3_shouldOcr_auto (pageText : List Char) (minChars : Int)
    (hasImages : Bool) :
    (shouldOcr pageText OcrMode.auto minChars hasImages = true ↔
      ((((pySplit pageText).flatten).length : Int) < minChars
        ∨ hasImages = true))
    ∧ shouldOcr pageText OcrMode.auto 0 false = false := by
  constructor
  · unfold shouldOcr
    simp
  · show (decide ((((pySplit pageText).flatten).length : Int) < 0)
      || false) = false
    rw [Bool.or_false]
    exact decide_eq_false (Int.not_lt.mpr (Int.natCast_nonneg _))

/-- C6: `_should_ocr` with mode `force` always returns true, and with
mode `off` always returns false, whatever the other inputs. -/
theorem C6_shouldOcr_force_off (pageText : List Char) (minChars : Int)
    (hasImages : Bool) :
    shouldOcr pageText OcrMode.force minChars hasImages = true
    ∧ shouldOcr pageText OcrMode.off minChars hasImages = false :=
  ⟨rfl, rfl⟩

/-- C4: with empty trimmed native text `_merge_page_text` returns the
trimmed OCR text, and with non-empty trimmed native text and empty
trimmed OCR text it returns the trimmed native text. -/
theorem C4_merge_empty (nativeText ocrText : List Char) :
    (pyStrip nativeText = [] →
      mergePageText nativeText ocrText = pyStrip ocrText)
    ∧ (pyStrip nativeText ≠ [] → pyStrip ocrText = [] →
      mergePageText nativeText ocrText = pyStrip nativeText) := by
  constructor
  · intro h
    rw [mergePageText_eq, if_pos h]
  · intro h1 h2
    rw [mergePageText_eq, if_neg h1, if_pos h2]

theorem C4_merge_empty_witness :
    mergePageText [] [' ', 'a'] = pyStrip [' ', 'a']
    ∧ mergePageText [' ', 'a'] [] = pyStrip [' ', 'a'] :=
  ⟨(C4_merge_empty [] [' ', 'a']).1 (by decide),
   (C4_merge_empty [' ', 'a'] []).2 (by decide) (by decide)⟩

/-- C9: reconciling a text with itself returns the text stripped of
leading and trailing whitespace. -/
theorem C9_merge_self (t : List Char) : mergePageText t t = pyStrip t :=
  merge_same rfl

/-- C2: when both trimmed texts are non-empty and the similarity ratio of
their normalized forms strictly exceeds 0.9, `_merge_page_text` returns
the longer of the two trimmed texts, the trimmed native text on ties. -/
theorem C2_merge_similar (nativeText ocrText : List Char)
    (h1 : pyStrip nativeText ≠ []) (h2 : pyStrip ocrText ≠ [])
    (h3 : 9 / 10 < pySimilarity (normalizeLine (pyStrip nativeText))
      (normalizeLine (pyStrip ocrText))) :
    mergePageText nativeText ocrText =
      if (pyStrip ocrText).length ≤ (pyStrip nativeText).length
        then pyStrip nativeText else pyStrip ocrText := by
  rw [mergePageText_eq, if_neg h1, if_neg h2,
    if_pos ((similarityExceeds_iff _ _).mpr h3)]

set_option maxRecDepth 20000 in
theorem C2_merge_similar_witness :
    mergePageText (("The quick brown fox").data)
        (("the   quick brown fox").data) =
      if (pyStrip (("the   quick brown fox").data)).length
          ≤ (pyStrip (("The quick brown fox").data)).length
        then pyStrip (("The quick brown fox").data)
        else pyStrip (("the   quick brown fox").data) :=
  C2_merge_similar _ _ (by decide) (by decide)
    ((similarityExceeds_iff _ _).mp (by decide))

/-- C1: when both trimmed texts are non-empty and the similarity ratio of
their normalized forms is not greater than 0.9, `_merge_page_text`
computes the candidate lines described by the specification (split, trim,
drop blanks and short normalized lines and native duplicates, then
deduplicate by normalized form, first occurrence winning) and appends
them after the `"\n\n[OCR additions]\n"` separator, or returns the
trimmed native text unchanged when no candidate survives. -/
theorem C1_merge_additive (nativeText ocrText : List Char)
    (h1 : pyStrip nativeText ≠ []) (h2 : pyStrip ocrText ≠ [])
    (h3 : pySimilarity (normalizeLine (pyStrip nativeText))
      (normalizeLine (pyStrip ocrText)) ≤ 9 / 10) :
    mergePageText nativeText ocrText =
      if specCandidates (pyStrip nativeText) (pyStrip ocrText) = []
        then pyStrip nativeText
      else pyStrip nativeText ++ ocrSep ++ pyJoin '\n'
        (specCandidates (pyStrip nativeText) (pyStrip ocrText)) := by
  rw [mergePageText_eq, if_neg h1, if_neg h2,
    if_neg (by simp [(similarityExceeds_false_iff _ _).mpr h3]),
    mergeLoop_eq_specCandidates]

set_option maxRecDepth 20000 in
theorem C1_merge_additive_witness :
    mergePageText (("Line one.\nLine two.").data)
        (("Line one.\nLine two.\nLine three extra content.").data) =
      if specCandidates (pyStrip (("Line one.\nLine two.").data))
          (pyStrip (("Line one.\nLine two.\nLine three extra content.").data))
          = []
        then pyStrip (("Line one.\nLine two.").data)
      else pyStrip (("Line one.\nLine two.").data) ++ ocrSep ++ pyJoin '\n'
        (specCandidates (pyStrip (("Line one.\nLine two.").data))
          (pyStrip
            (("Line one.\nLine two.\nLine three extra content.").data))) :=
  C1_merge_additive _ _ (by decide) (by decide)
    ((similarityExceeds_false_iff _ _).mp (by decide))

/-- C10: on the additive-merge path the trimmed native text is a prefix
of the result: native content is never dropped or replaced. -/
theorem C10_native_preserved (nativeText ocrText : List Char)
    (h1 : pyStrip nativeText ≠ []) (h2 : pyStrip ocrText ≠ [])
    (h3 : pySimilarity (normalizeLine (pyStrip nativeText))
      (normalizeLine (pyStrip ocrText)) ≤ 9 / 10) :
    pyStrip nativeText <+: mergePageText nativeText ocrText := by
  rw [mergePageText_eq, if_neg h1, if_neg h2,
    if_neg (by simp [(similarityExceeds_false_iff _ _).mpr h3])]
  by_cases h : mergeLoop (existingOf (pyStrip nativeText))
      (pySplitlines (pyStrip ocrText)) = []
  · rw [if_pos h]
  · rw [if_neg h]
    exact ⟨ocrSep ++ pyJoin '\n' (mergeLoop (existingOf (pyStrip nativeText))
      (pySplitlines (pyStrip ocrText))), by rw [List.append_assoc]⟩

set_option maxRecDepth 20000 in
theorem C10_native_preserved_witness :
    pyStrip (("abc").data) <+:
      mergePageText (("abc").data) (("defgh").data) :=
  C10_native_preserved _ _ (by decide) (by decide)
    ((similarityExceeds_false_iff _ _).mp (by decide))

/-- C5 (amended): re-running reconciliation on its own output against the
same OCR text never appends another `[OCR additions]` section — the
additive branch of the second run finds no candidates — so the second
result is the first result unchanged or, out of the high-similarity
branch, the trimmed OCR text. -/
theorem C5_second_merge (nativeText ocrText : List Char) :
    mergePageText (mergePageText nativeText ocrText) ocrText
      = mergePageText nativeText ocrText
    ∨ mergePageText (mergePageText nativeText ocrText) ocrText
      = pyStrip ocrText :=
  merge_merge nativeText ocrText

set_option maxRecDepth 1000000 in
/-- C5 counterexample: on `cexNative`/`cexOcr` the line `"abc"` is
appended exactly once by the first merge (it is one of its addition
lines and occurs once in the merged text), yet the second merge's result
contains it twice as a line: the second reconciliation duplicates a
previously appended addition line, so the claim as stated fails. -/
theorem C5_counterexample :
    ("abc").data ∈ mergeLoop (existingOf (pyStrip cexNative))
        (pySplitlines (pyStrip cexOcr))
    ∧ (pySplitlines (mergePageText cexNative cexOcr)).count
        (("abc").data) = 1
    ∧ (pySplitlines (mergePageText (mergePageText cexNative cexOcr)
        cexOcr)).count (("abc").data) = 2 := by
  refine ⟨by decide, by decide, by decide⟩

theorem forceNat_eq {α : Type} (n : Nat) (f : Nat → α) : forceNat n f = f n := by
  cases n <;> rfl

/-- C7: with an OCR capability that always succeeds, `extract_pdf_text`
produces exactly the concatenation, in ascending 1-based page order, of
one chunk per page — the page's final text prefixed by the literal marker
`"\n\n--- Page N ---\n\n"` — with leading whitespace stripped, hence no
trailing marker. -/
theorem C7_document_layout (pages : List PdfPage) (f : Nat → List Char)
    (ocrMode : OcrMode) (minChars : Int) :
    extractPdfText pages (fun i => Except.ok (f i)) ocrMode minChars
      = Except.ok (specDocument pages f ocrMode minChars) :=
  extractPdfText_ok pages f ocrMode minChars

/-- C8: a failing OCR invocation at the first page that needs OCR
propagates out of `extract_pdf_text` as that error, `main` then exits
with status 2 and writes nothing; and whenever anything is written, it is
the full document text successfully produced by `extract_pdf_text`. -/
theorem C8_ocr_failure_aborts (pages : List PdfPage)
    (ocr : Nat → Except (List Char) (List Char)) (ocrMode : OcrMode)
    (minChars : Int) :
    (∀ (e : List Char) (k : Nat), k < pages.length →
      (∀ j, j < k →
        shouldOcr (pages.getD j ⟨[], false⟩).nativeText ocrMode minChars
          (pages.getD j ⟨[], false⟩).hasImages = true →
        ∃ t, ocr j = Except.ok t) →
      shouldOcr (pages.getD k ⟨[], false⟩).nativeText ocrMode minChars
        (pages.getD k ⟨[], false⟩).hasImages = true →
      ocr k = Except.error e →
      extractPdfText pages ocr ocrMode minChars = Except.error e
        ∧ mainRun pages ocr ocrMode minChars = (2, none))
    ∧ (∀ t, (mainRun pages ocr ocrMode minChars).2 = some t →
        mainRun pages ocr ocrMode minChars = (0, some t)
          ∧ extractPdfText pages ocr ocrMode minChars = Except.ok t) := by
  constructor
  · intro e k hk hprev hso herr
    have hgo : extractGo ocr ocrMode minChars 0 pages = Except.error e := by
      apply extractGo_error ocr ocrMode minChars e pages 0 k hk
      · intro j hj hsoj
        obtain ⟨t, ht⟩ := hprev j hj hsoj
        exact ⟨t, by rw [Nat.zero_add]; exact ht⟩
      · exact hso
      · rw [Nat.zero_add]
        exact herr
    have hex : extractPdfText pages ocr ocrMode minChars
        = Except.error e := by
      unfold extractPdfText
      rw [hgo]
      rfl
    refine ⟨hex, ?_⟩
    unfold mainRun
    rw [hex]
  · intro t ht
    unfold mainRun at ht ⊢
    cases hex : extractPdfText pages ocr ocrMode minChars with
    | error e => rw [hex] at ht; exact absurd ht (by simp)
    | ok u =>
      rw [hex] at ht
      simp only [Option.some.injEq] at ht
      subst ht
      exact ⟨rfl, rfl⟩

theorem C8_ocr_failure_aborts_witness :
    extractPdfText [⟨("page with plenty of text").data, false⟩]
        (fun _ => Except.error (("Tesseract binary not found.").data))
        OcrMode.force 20
      = Except.error (("Tesseract binary not found.").data)
    ∧ mainRun [⟨("page with plenty of text").data, false⟩]
        (fun _ => Except.error (("Tesseract binary not found.").data))
        OcrMode.force 20
      = (2, none) :=
  (C8_ocr_failure_aborts _ _ _ _).1 (("Tesseract binary not found.").data) 0
    (by decide) (fun j hj _ => absurd hj (by omega)) rfl rfl
